import Mathlib

/-!
Verification of TreePlot (treeplot.py): a parser for the bracketed tree
grammar `T = ( <label> T* )`, annotation passes computing subtree width,
height and depth, and a stack-based layout/rendering pass that assigns
coordinates and emits SVG elements.

The Python source is shallowly embedded below.  Mutable fields become
explicit data: the parser state (the `last` insertion pointer, the
open-paren counter `depth` and the small state machine) becomes `PState`,
the annotated node fields become the `ATree` record, and the plotting pass
becomes a stack machine over lists.  Machine integers are `Nat`/`Int`; the
two float multiplications in `plotNode` (`NODE_DIST * 0.5`) are exact on
the even constants 50 and 60, so coordinates are embedded as exact `Int`
arithmetic (`w * 50 / 2 = w * 25`, `60 / 2 = 30`).
-/

set_option maxHeartbeats 1000000

namespace TreePlot

/-- The raw parse tree built by `compileTree`: a label plus the ordered
children (`Node.label`, `Node.children` in the source). -/
inductive PTree : Type where
  | node (label : String) (children : List PTree)

def PTree.label : PTree → String
  | .node l _ => l

def PTree.children : PTree → List PTree
  | .node _ cs => cs

/-! ## Tokenization

`compileTree` reads the file, strips it, surrounds every paren with spaces
(`content.replace`) and splits on whitespace (`content.split()`).  The
leading `strip()` is dropped here: `split()` already discards outer
whitespace, so it does not change the token list.  The two sequential
`replace` calls are fused into one character pass: the first inserts no
`)` and the second inserts no `(`, so the fusion is exact. -/

/-- Surround every `(` and `)` with spaces (the two `content.replace`
calls of `compileTree`). -/
def expandParens : List Char → List Char
  | [] => []
  | c :: cs =>
    if c = '(' ∨ c = ')' then ' ' :: c :: ' ' :: expandParens cs
    else c :: expandParens cs

/-- Split a character list on runs of whitespace, discarding empties
(Python `str.split()` with no argument).  `acc` holds the current token
reversed. -/
def splitWS : List Char → List Char → List String
  | [], acc => if acc.isEmpty then [] else [String.mk acc.reverse]
  | c :: cs, acc =>
    if c.isWhitespace then
      if acc.isEmpty then splitWS cs [] else String.mk acc.reverse :: splitWS cs []
    else splitWS cs (c :: acc)

/-- The token list `T` of `compileTree`. -/
def tokenize (s : String) : List String :=
  splitWS (expandParens s.data) []

/-! ## The parser -/

/-- The parse-error taxonomy printed by `compileTree` before `sys.exit(1)`. -/
inductive PErr : Type where
  | missingOpen
  | tooShort
  | unexpectedTok (t : String) (i : Nat)
  | bracketMismatch
deriving DecidableEq, Repr

/-- Uncaught Python exceptions the parser can raise: `T[0]` on an empty
token list (IndexError) and attribute access on `last = None`
(AttributeError). -/
inductive Crash : Type where
  | indexError
  | noneAttr
deriving DecidableEq, Repr

/-- The result of running `compileTree` on a token list. -/
inductive Outcome : Type where
  | ok (t : PTree)
  | err (e : PErr)
  | crash (c : Crash)

/-- The loop state of `compileTree`.  `spine` is the chain of open nodes
from the insertion pointer `last` (head) up to the root (end); each frame
is the node label with the children built so far, in reverse.  `last =
None` (after the root closes) is `spine = []`, with the finished root kept
in `rootDone`.  `depth` is the open-paren counter, `st` the state machine
value. -/
structure PState : Type where
  spine : List (String × List PTree)
  rootDone : Option PTree
  depth : Int
  st : Nat

/-- One iteration of the token loop of `compileTree` (token `t` at overall
index `i`): the branch order is exactly the if/elif chain of the source. -/
def stepTok (i : Nat) (t : String) (s : PState) : Except Outcome PState :=
  if t = ")" ∧ (s.st = 1 ∨ s.st = 2) then
    match s.spine with
    | [] => .error (.crash .noneAttr)
    | [(l, rcs)] =>
      .ok ⟨[], some (.node l rcs.reverse), s.depth - 1, 2⟩
    | (l, rcs) :: (l2, rcs2) :: rest =>
      .ok ⟨(l2, PTree.node l rcs.reverse :: rcs2) :: rest, s.rootDone, s.depth - 1, 2⟩
  else if t = "(" ∧ (s.st = 1 ∨ s.st = 2) then
    .ok ⟨s.spine, s.rootDone, s.depth + 1, 0⟩
  else if s.st = 0 then
    match s.spine with
    | [] => .error (.crash .noneAttr)
    | (l, rcs) :: rest => .ok ⟨(t, []) :: (l, rcs) :: rest, s.rootDone, s.depth, 1⟩
  else .error (.err (.unexpectedTok t i))

/-- The token loop `for i, t in enumerate(T[2:])`. -/
def runLoop : List String → Nat → PState → Except Outcome PState
  | [], _, s => .ok s
  | t :: ts, i, s =>
    match stepTok i t s with
    | .error o => .error o
    | .ok s2 => runLoop ts (i + 1) s2

/-- The loop state right after `root = Node(T[1]); last = root; depth = 1;
state = 1`. -/
def initState (l1 : String) : PState := ⟨[(l1, [])], none, 1, 1⟩

/-- After the loop: `if depth != 0` report the bracket mismatch, else
return the root.  The `rootDone = none` branch is unreachable from
`initState` (`rootDone_of_depth_zero` below): `depth = 0` forces the root
frame to have been popped. -/
def finishParse : Except Outcome PState → Outcome
  | .error o => o
  | .ok fs =>
    if fs.depth ≠ 0 then .err .bracketMismatch
    else
      match fs.rootDone with
      | some r => .ok r
      | none => .crash .indexError

/-- `compileTree` on an already-tokenized input: the sanity checks
(`T[0] != "("` — raising IndexError on an empty list — and
`len(T) < 3`), then the token loop and the final bracket check. -/
def compileT (T : List String) : Outcome :=
  match T with
  | [] => .crash .indexError
  | t0 :: rest =>
    if t0 = "(" then
      match rest with
      | [] => .err .tooShort
      | [_] => .err .tooShort
      | l1 :: t2 :: ts => finishParse (runLoop (t2 :: ts) 2 (initState l1))
    else .err .missingOpen

/-- The outcome of finishing the parse from a mid-loop state (the rest of
the token loop followed by the final bracket check). -/
def runOutcome (ts : List String) (i : Nat) (s : PState) : Outcome :=
  finishParse (runLoop ts i s)

/-- `compileTree` on the file content (tokenize, then parse). -/
def compileTree (s : String) : Outcome :=
  compileT (tokenize s)

/-- Invariant of the parser loop state, tying the state machine value, the
open-paren counter and the spine length together; it makes the
`rootDone = none` branch of `finishParse` unreachable. -/
def stInv (s : PState) : Prop :=
  (s.st = 0 ∨ s.st = 1 ∨ s.st = 2) ∧
  (s.st = 0 → s.depth = s.spine.length + 1) ∧
  (s.st = 1 → s.depth = s.spine.length ∧ s.spine ≠ []) ∧
  (s.st = 2 → s.depth = s.spine.length) ∧
  (s.spine = [] → s.rootDone.isSome = true)

/-! ## Annotation passes (`update_width`, `update_height`, `update_depth`) -/

mutual
/-- `Node.update_width`: a leaf gets width 1, an internal node the sum of
the children widths (each recursive call stores the analogous value at
every subtree node). -/
def update_width : PTree → Nat
  | .node _ [] => 1
  | .node _ (c :: cs) => widthSum (c :: cs)

/-- `sum([child.update_width() for child in self.children])`. -/
def widthSum : List PTree → Nat
  | [] => 0
  | c :: cs => update_width c + widthSum cs
end

mutual
/-- `Node.update_height`: a leaf gets height 1, an internal node
`1 + max(children heights)`. -/
def update_height : PTree → Nat
  | .node _ [] => 1
  | .node _ (c :: cs) => 1 + heightMax (c :: cs)

/-- `max([child.update_height() for child in self.children])` as a fold
(equal to the Python `max` on the nonempty lists it is applied to). -/
def heightMax : List PTree → Nat
  | [] => 0
  | c :: cs => Nat.max (update_height c) (heightMax cs)
end

mutual
/-- All nodes of the tree, in pre-order (used to count leaves
independently of `update_width`). -/
def allNodes : PTree → List PTree
  | .node l cs => .node l cs :: allNodesList cs

def allNodesList : List PTree → List PTree
  | [] => []
  | c :: cs => allNodes c ++ allNodesList cs
end

/-- The number of leaf nodes of the tree, counted over the node list. -/
def numLeaves (t : PTree) : Nat :=
  ((allNodes t).filter fun u => u.children.isEmpty).length

/-- A node after the three annotation passes, with the mutable plotting
fields `pos_x`/`pos_y` made explicit options (`none` = still unset). -/
inductive ATree : Type where
  | node (label : String) (width : Nat) (height : Nat) (depth : Int)
      (px py : Option Int) (children : List ATree)

def ATree.label : ATree → String
  | .node l _ _ _ _ _ _ => l

def ATree.width : ATree → Nat
  | .node _ w _ _ _ _ _ => w

def ATree.height : ATree → Nat
  | .node _ _ h _ _ _ _ => h

def ATree.depth : ATree → Int
  | .node _ _ _ d _ _ _ => d

def ATree.px : ATree → Option Int
  | .node _ _ _ _ x _ _ => x

def ATree.py : ATree → Option Int
  | .node _ _ _ _ _ y _ => y

def ATree.children : ATree → List ATree
  | .node _ _ _ _ _ _ cs => cs

mutual
/-- The combined effect of `root.update_width(); root.update_height();
root.update_depth()` on a subtree whose parent has depth `pd` (the
default argument of `update_depth` is `parent_depth = -1`, so the root is
annotated by `annotate t (-1)`).  Each node carries exactly the values the
three passes store in its fields; `pos_x`/`pos_y` stay unset. -/
def annotate : PTree → Int → ATree
  | .node l cs, pd =>
    .node l (update_width (.node l cs)) (update_height (.node l cs)) (pd + 1)
      none none (annotateList cs (pd + 1))

def annotateList : List PTree → Int → List ATree
  | [], _ => []
  | c :: cs, pd => annotate c pd :: annotateList cs pd
end

/-- Sum of the stored `width` fields of a list of annotated nodes. -/
def widthSumA : List ATree → Nat
  | [] => 0
  | c :: cs => c.width + widthSumA cs

/-- Fold max of the stored `height` fields. -/
def heightMaxA : List ATree → Nat
  | [] => 0
  | c :: cs => Nat.max c.height (heightMaxA cs)

mutual
/-- Every node satisfies the width recurrence (leaf 1, internal the sum of
the children widths): the shape `update_width` leaves behind. -/
def wOK : ATree → Bool
  | .node _ w _ _ _ _ cs =>
    (if cs.isEmpty then w == 1 else w == widthSumA cs) && wOKList cs

def wOKList : List ATree → Bool
  | [] => true
  | c :: cs => wOK c && wOKList cs
end

/-- The subtree at a path of child indices (a node of the tree identified
by its position). -/
def nodeAt : ATree → List Nat → Option ATree
  | t, [] => some t
  | .node _ _ _ _ _ _ cs, i :: p =>
    match cs[i]? with
    | some c => nodeAt c p
    | none => none

/-- Value of the leaf cursor on entry to the node at the given path, when
the traversal of the whole tree starts at cursor `e`: descending into
child `i` skips the leaf slots of the earlier siblings. -/
def entryAt : ATree → Nat → List Nat → Option Nat
  | _, e, [] => some e
  | .node _ _ _ _ _ _ cs, e, i :: p =>
    match cs[i]? with
    | some c => entryAt c (e + widthSumA (cs.take i)) p
    | none => none

/-- Path `p` leads to an ancestor-or-self position of path `q`. -/
def isAnc : List Nat → List Nat → Bool
  | [], _ => true
  | _ :: _, [] => false
  | a :: p, b :: q => a == b && isAnc p q

/-! ## The layout and rendering pass (`TreePlotter`) -/

/-- `NODE_RADIUS` from the source. -/
def NODE_RADIUS : Int := 20

/-- `NODE_DIST_X` (horizontal spacing). -/
def NODE_DIST_X : Int := 50

/-- `NODE_DIST_Y` (vertical spacing). -/
def NODE_DIST_Y : Int := 60

/-- An SVG element appended by `plotNode`: `createCircle(x, y, r)`, the
centered `text(label, x, y)`, or `line(x1, y1, x2, y2)`. -/
inductive Elem : Type where
  | circle (cx cy r : Int)
  | textE (label : String) (x y : Int)
  | lineE (x1 y1 x2 y2 : Int)
deriving DecidableEq, Repr

def Elem.isCircle : Elem → Bool
  | .circle _ _ _ => true
  | _ => false

def Elem.isText : Elem → Bool
  | .textE _ _ _ => true
  | _ => false

def Elem.isLine : Elem → Bool
  | .lineE _ _ _ _ => true
  | _ => false

/-- One visit of the plotting loop, recording what `plotNode` reads and
computes.  `path`, `cursor` and `nkids` are ghost bookkeeping (the
position of the node in the tree, the value of `self.indent` at the
visit, and the child count) identifying the visit; they do not feed back
into the emitted elements. -/
structure Visit : Type where
  path : List Nat
  label : String
  width : Nat
  nkids : Nat
  depth : Int
  cursor : Nat
  x : Int
  y : Int
  parentPos : Option (Int × Int)
deriving DecidableEq, Repr

/-- The x coordinate computed by `plotNode`:
`self.indent * NODE_DIST_X + node.width * NODE_DIST_X * 0.5`.  The float
product `width * 50 * 0.5` is the exact integer `width * 25`, written
here as exact integer division. -/
def xOf (cursor width : Nat) : Int :=
  (cursor : Int) * NODE_DIST_X + (width : Int) * NODE_DIST_X / 2

/-- The y coordinate: `node.depth * NODE_DIST_Y + NODE_DIST_Y * 0.5`. -/
def yOf (depth : Int) : Int :=
  depth * NODE_DIST_Y + NODE_DIST_Y / 2

/-- The elements `plotNode` appends for one node, in source order: the
filled circle, the label, and — when the node has a parent — the line
from the bottom of the parent circle to the top of this circle. -/
def plotNodeElems (l : String) (x y : Int) (pp : Option (Int × Int)) : List Elem :=
  [.circle x y NODE_RADIUS, .textE l x y] ++
    match pp with
    | some q => [.lineE q.1 (q.2 + NODE_RADIUS) x (y - NODE_RADIUS)]
    | none => []

mutual
/-- Size measure for the termination of the stack machine. -/
def ATree.sz : ATree → Nat
  | .node _ _ _ _ _ _ cs => 1 + szList cs

def szList : List ATree → Nat
  | [] => 0
  | c :: cs => ATree.sz c + szList cs
end

/-- A plotting stack entry: the node, the position of its parent (what
`node.parent.pos_x`/`pos_y` holds when the node is popped — already
finalized, because the parent was plotted before its children were
pushed) and the ghost path.  Children are pushed so that the leftmost is
popped next (`stack.extend(node.children[::-1])` with `pop()` from the
end = prepending the children in order to a head-pop list). -/
def pushChildren :
    List ATree → Int × Int → List Nat → Nat → List (ATree × Option (Int × Int) × List Nat)
  | [], _, _, _ => []
  | c :: cs, xy, p, i => (c, some xy, p ++ [i]) :: pushChildren cs xy p (i + 1)

/-- Sum of node sizes over a stack. -/
def stackSz : List (ATree × Option (Int × Int) × List Nat) → Nat
  | [] => 0
  | (t, _, _) :: rest => t.sz + stackSz rest

/-- The plotting loop `TreePlotter.plotTree` with `plotNode` inlined: pop
a node, push its children (leftmost next), emit its elements, record the
visit, and bump `self.indent` when the node has no children.  Returns the
emitted elements, the visit trace and the final `self.indent`. -/
def plotTreeM :
    List (ATree × Option (Int × Int) × List Nat) → Nat → List Elem × List Visit × Nat
  | [], ind => ([], [], ind)
  | (.node l w h d _ _ cs, pp, p) :: rest, ind =>
    let x := xOf ind w
    let y := yOf d
    let es := plotNodeElems l x y pp
    let v : Visit := ⟨p, l, w, cs.length, d, ind, x, y, pp⟩
    let ind1 := if cs.isEmpty then ind + 1 else ind
    let r := plotTreeM (pushChildren cs (x, y) p 0 ++ rest) ind1
    (es ++ r.1, v :: r.2.1, r.2.2)
termination_by stack _ => stackSz stack
decreasing_by
  simp only [stackSz, ATree.sz]
  have hp : ∀ (cs : List ATree) (xy : Int × Int) (q : List Nat) (i : Nat)
      (rest : List (ATree × Option (Int × Int) × List Nat)),
      stackSz (pushChildren cs xy q i ++ rest) = szList cs + stackSz rest := by
    intro cs
    induction cs with
    | nil => intro xy q i rest; simp [pushChildren, szList]
    | cons c cs ih => intro xy q i rest; simp [pushChildren, szList, stackSz, ih]; omega
  rw [hp]
  omega

mutual
/-- Recursive (per-subtree) characterization of the stack machine: visit
the node, then the children left to right, threading the leaf cursor. -/
def placeSpec :
    ATree → Option (Int × Int) → List Nat → Nat → List Elem × List Visit × Nat
  | .node l w h d _ _ cs, pp, p, ind =>
    let x := xOf ind w
    let y := yOf d
    let es := plotNodeElems l x y pp
    let v : Visit := ⟨p, l, w, cs.length, d, ind, x, y, pp⟩
    let ind1 := if cs.isEmpty then ind + 1 else ind
    let r := placeSpecList cs (x, y) p 0 ind1
    (es ++ r.1, v :: r.2.1, r.2.2)

def placeSpecList :
    List ATree → Int × Int → List Nat → Nat → Nat → List Elem × List Visit × Nat
  | [], _, _, _, ind => ([], [], ind)
  | c :: cs, xy, p, i, ind =>
    let r1 := placeSpec c (some xy) (p ++ [i]) ind
    let r2 := placeSpecList cs xy p (i + 1) r1.2.2
    (r1.1 ++ r2.1, r1.2.1 ++ r2.2.1, r2.2.2)
end

/-- Sequential composition of `placeSpec` over a stack. -/
def foldSpec :
    List (ATree × Option (Int × Int) × List Nat) → Nat → List Elem × List Visit × Nat
  | [], ind => ([], [], ind)
  | (t, pp, p) :: rest, ind =>
    let r1 := placeSpec t pp p ind
    let r2 := foldSpec rest r1.2.2
    (r1.1 ++ r2.1, r1.2.1 ++ r2.2.1, r2.2.2)

mutual
/-- The effect of the plotting pass on the tree itself: `plotNode` stores
the computed position in `node.pos_x`/`node.pos_y` and changes nothing
else; traversal order and cursor mirror `plotTreeM`. -/
def applyLayout : ATree → Nat → ATree × Nat
  | .node l w h d _ _ cs, ind =>
    let x := xOf ind w
    let y := yOf d
    let ind1 := if cs.isEmpty then ind + 1 else ind
    let r := applyLayoutList cs ind1
    (.node l w h d (some x) (some y) r.1, r.2)

def applyLayoutList : List ATree → Nat → List ATree × Nat
  | [], ind => ([], ind)
  | c :: cs, ind =>
    let r1 := applyLayout c ind
    let r2 := applyLayoutList cs r1.2
    (r1.1 :: r2.1, r2.2)
end

mutual
/-- The stored positions of all nodes, read in pre-order. -/
def storedPos : ATree → List (Option Int × Option Int)
  | .node _ _ _ _ px py cs => (px, py) :: storedPosList cs

def storedPosList : List ATree → List (Option Int × Option Int)
  | [] => []
  | c :: cs => storedPos c ++ storedPosList cs
end

mutual
/-- The pre-order paths of the tree, leftmost child first. -/
def pathsPre : ATree → List (List Nat)
  | .node _ _ _ _ _ _ cs => [] :: pathsPreList cs 0

def pathsPreList : List ATree → Nat → List (List Nat)
  | [], _ => []
  | c :: cs, i => (pathsPre c).map (fun q => i :: q) ++ pathsPreList cs (i + 1)
end

/-- The leaf cursor values along a visit list: each visit sees the running
value, which advances by one exactly on the zero-children visits. -/
def cursorsFrom : Nat → List Visit → Prop
  | _, [] => True
  | c, v :: vs => v.cursor = c ∧ cursorsFrom (if v.nkids = 0 then c + 1 else c) vs

/-- The cursor value after a visit list. -/
def exitC : Nat → List Visit → Nat
  | c, [] => c
  | c, v :: vs => exitC (if v.nkids = 0 then c + 1 else c) vs

mutual
/-- Every node satisfies the depth and height recurrences (each child one
deeper than its parent; leaf height 1, internal height one more than the
max child height): the shape `update_depth`/`update_height` leave
behind. -/
def dhOK : ATree → Bool
  | .node _ _ h d _ _ cs =>
    (if cs.isEmpty then h == 1 else h == 1 + heightMaxA cs) &&
      cs.all (fun c => c.depth == d + 1) && dhOKList cs

def dhOKList : List ATree → Bool
  | [] => true
  | c :: cs => dhOK c && dhOKList cs
end

/-- What one visit of the traversal records, characterized through the
tree: the visited node sits at path `q` below the stack entry, the cursor
at the visit is the entry cursor of that path, the recorded data are the
node fields, the coordinates follow the layout formulas, and the parent
position is the computed position of the node one level up (or the stack
entry parent position at the entry itself). -/
def visitSpecOK (t : ATree) (pp : Option (Int × Int)) (p0 : List Nat) (ind : Nat)
    (v : Visit) : Prop :=
  ∃ q n, v.path = p0 ++ q ∧ nodeAt t q = some n ∧ entryAt t ind q = some v.cursor ∧
    v.width = n.width ∧ v.depth = n.depth ∧ v.nkids = n.children.length ∧
    v.label = n.label ∧ v.x = xOf v.cursor n.width ∧ v.y = yOf n.depth ∧
    (q = [] → v.parentPos = pp) ∧
    ∀ q2 i, q = q2 ++ [i] →
      ∃ m e2, nodeAt t q2 = some m ∧ entryAt t ind q2 = some e2 ∧
        v.parentPos = some (xOf e2 m.width, yOf m.depth)

/-- The per-visit element blocks, concatenated in visit order (the
content of the accumulated plot, per node: circle, label, optional
line). -/
def renderOf : List Visit → List Elem
  | [] => []
  | v :: vs => plotNodeElems v.label v.x v.y v.parentPos ++ renderOf vs

/-- The full plotting run on an annotated tree, as `plot` performs it: the
plotter starts with `self.indent = 0` and the root is pushed with no
parent. -/
def plotRun (t : ATree) : List Elem × List Visit × Nat :=
  plotTreeM [(t, none, [])] 0

/-- `plot(filename)` up to the SVG library calls: parse, annotate (the
three update passes `compileTree` ends with), lay out and render. -/
def plotPipeline (s : String) : Option (List Elem × List Visit × Nat) :=
  match compileTree s with
  | .ok t => some (plotRun (annotate t (-1)))
  | _ => none

end TreePlot

/-! # Theorems

First the supporting lemmas about the parser loop, then the annotation
passes, then the layout machine, and finally one theorem per claim. -/

namespace TreePlot

theorem runLoop_cons (t : String) (ts : List String) (i : Nat) (s : PState) :
    runLoop (t :: ts) i s =
      match stepTok i t s with
      | .error o => .error o
      | .ok s2 => runLoop ts (i + 1) s2 := rfl

theorem runLoop_append (ts1 ts2 : List String) (i : Nat) (s : PState) :
    runLoop (ts1 ++ ts2) i s =
      match runLoop ts1 i s with
      | .error o => .error o
      | .ok s1 => runLoop ts2 (i + ts1.length) s1 := by
  induction ts1 generalizing i s with
  | nil => simp [runLoop]
  | cons t ts ih =>
    rw [List.cons_append, runLoop_cons, runLoop_cons]
    cases hst : stepTok i t s with
    | error o => rfl
    | ok s2 =>
      simp only
      rw [ih]
      cases runLoop ts (i + 1) s2 with
      | error o => rfl
      | ok s1 =>
        simp only [List.length_cons]
        have hlen : i + 1 + ts.length = i + (ts.length + 1) := by omega
        rw [hlen]

/-- The errors one loop step can raise: the None dereference or the
unexpected-token diagnostic (never the bracket mismatch, which only the
post-loop check produces). -/
theorem stepTok_error (i : Nat) (t : String) (s : PState) (o : Outcome)
    (h : stepTok i t s = .error o) :
    o = .crash .noneAttr ∨ o = .err (.unexpectedTok t i) := by
  unfold stepTok at h
  split at h
  case isTrue hc =>
    split at h
    · cases h; simp
    · cases h
    · cases h
  case isFalse hc1 =>
    split at h
    case isTrue hc2 => cases h
    case isFalse hc2 =>
      split at h
      case isTrue hst0 =>
        split at h
        · cases h; simp
        · cases h
      case isFalse => cases h; simp

theorem runLoop_error (ts : List String) (i : Nat) (s : PState) (o : Outcome)
    (h : runLoop ts i s = .error o) :
    o = .crash .noneAttr ∨ ∃ u j, o = .err (.unexpectedTok u j) := by
  induction ts generalizing i s with
  | nil => simp [runLoop] at h
  | cons t ts ih =>
    rw [runLoop_cons] at h
    split at h
    · rename_i o2 hst
      cases h
      rcases stepTok_error i t s _ hst with h2 | h2
      · exact Or.inl h2
      · exact Or.inr ⟨t, i, h2⟩
    · rename_i s1 hst
      exact ih (i + 1) s1 h

theorem stInv_init (l1 : String) : stInv (initState l1) := by
  simp [stInv, initState]

theorem stepTok_inv {i : Nat} {t : String} {s s2 : PState} (hI : stInv s)
    (h : stepTok i t s = .ok s2) : stInv s2 := by
  obtain ⟨h012, h0, h1, h2, hroot⟩ := hI
  unfold stepTok at h
  split at h
  case isTrue hc =>
    split at h
    · cases h
    · rename_i l rcs hsp
      cases h
      have hd : s.depth = 1 := by
        rcases hc.2 with hst | hst
        · have := (h1 hst).1; rw [hsp] at this; simpa using this
        · have := h2 hst; rw [hsp] at this; simpa using this
      refine ⟨by simp, by simp, by simp, ?_, by simp⟩
      intro _
      simp [hd]
    · rename_i l rcs l2 rcs2 rest hsp
      cases h
      have hd : s.depth = s.spine.length := by
        rcases hc.2 with hst | hst
        · exact (h1 hst).1
        · exact h2 hst
      refine ⟨by simp, by simp, by simp, ?_, by simp⟩
      intro _
      rw [hd, hsp]
      simp [List.length_cons]
  case isFalse hc1 =>
    split at h
    case isTrue hc2 =>
      cases h
      rcases hc2.2 with hst | hst
      · obtain ⟨hd, _⟩ := h1 hst
        exact ⟨by simp, fun _ => by simp [hd], by simp, by simp, hroot⟩
      · have hd := h2 hst
        exact ⟨by simp, fun _ => by simp [hd], by simp, by simp, hroot⟩
    case isFalse hc2 =>
      split at h
      case isTrue hst0 =>
        split at h
        · cases h
        · rename_i l rcs rest hsp
          cases h
          have hd := h0 hst0
          refine ⟨by simp, by simp, ?_, by simp, by simp⟩
          intro _
          constructor
          · rw [hd, hsp]; simp [List.length_cons]
          · simp
      case isFalse => cases h

theorem runLoop_inv (ts : List String) (i : Nat) {s s2 : PState} (hI : stInv s)
    (h : runLoop ts i s = .ok s2) : stInv s2 := by
  induction ts generalizing i s with
  | nil =>
    simp only [runLoop] at h
    cases h
    exact hI
  | cons t ts ih =>
    rw [runLoop_cons] at h
    split at h
    · cases h
    · rename_i s1 hst
      exact ih (i + 1) (stepTok_inv hI hst) h

/-- Once the open-paren counter is back to 0 the insertion pointer is the
absent parent of the root: the spine is empty (and the finished root is
on record, so the defensive branch of `finishParse` never runs). -/
theorem depth_zero_state {s : PState} (hI : stInv s) (hd : s.depth = 0) :
    s.spine = [] ∧ s.st = 2 ∧ ∃ r, s.rootDone = some r := by
  obtain ⟨h012, h0, h1, h2, hroot⟩ := hI
  rcases h012 with hst | hst | hst
  · exfalso; have := h0 hst; omega
  · exfalso
    obtain ⟨hdl, hne⟩ := h1 hst
    have : s.spine.length ≠ 0 := by
      intro h
      exact hne (List.length_eq_zero.mp h)
    omega
  · have hdl := h2 hst
    have hlen : s.spine.length = 0 := by omega
    have hsp : s.spine = [] := List.length_eq_zero.mp hlen
    have hsome := hroot hsp
    rcases hr : s.rootDone with _ | r
    · rw [hr] at hsome; simp at hsome
    · exact ⟨hsp, hst, r, rfl⟩

/-- What happens to the rest of the input after the root has closed
(`last = None`, state 2, counter 0): a close paren or any token in the
label state dereferences `None`; a lone trailing open paren leaves the
counter at 1 and reports the bracket mismatch; a label token in state 2
reports it as unexpected. -/
theorem runOutcome_after_root (r : PTree) (idx : Nat) (u : String) (us : List String) :
    runOutcome (u :: us) idx ⟨[], some r, 0, 2⟩ =
      if u = ")" then .crash .noneAttr
      else if u = "(" then
        (if us.isEmpty then .err .bracketMismatch else .crash .noneAttr)
      else .err (.unexpectedTok u idx) := by
  by_cases h1 : u = ")"
  · simp [runOutcome, runLoop, stepTok, finishParse, h1]
  · by_cases h2 : u = "("
    · cases us with
      | nil => simp [runOutcome, runLoop, stepTok, finishParse, h1, h2]
      | cons w ws => simp [runOutcome, runLoop, stepTok, finishParse, h1, h2]
    · simp [runOutcome, runLoop, stepTok, finishParse, h1, h2]

theorem compileT_main (l1 t2 : String) (ts : List String) :
    compileT ("(" :: l1 :: t2 :: ts) = runOutcome (t2 :: ts) 2 (initState l1) := by
  simp [compileT, runOutcome]

theorem compileT_main2 (l1 : String) (body : List String) (hb : body ≠ []) :
    compileT ("(" :: l1 :: body) = runOutcome body 2 (initState l1) := by
  cases body with
  | nil => exact absurd rfl hb
  | cons t2 ts => exact compileT_main l1 t2 ts

theorem expandParens_ws (cs : List Char) (h : ∀ c ∈ cs, c.isWhitespace = true) :
    expandParens cs = cs := by
  induction cs with
  | nil => rfl
  | cons c cs ih =>
    have hc := h c (by simp)
    have hnp : ¬(c = '(' ∨ c = ')') := by
      rintro (rfl | rfl)
      · exact absurd hc (by decide)
      · exact absurd hc (by decide)
    rw [expandParens, if_neg hnp, ih fun d hm => h d (by simp [hm])]

theorem splitWS_ws (cs : List Char) (h : ∀ c ∈ cs, c.isWhitespace = true) :
    splitWS cs [] = [] := by
  induction cs with
  | nil => rfl
  | cons c cs ih =>
    have hc := h c (by simp)
    simp [splitWS, hc, ih fun d hm => h d (by simp [hm])]

theorem tokenize_ws (s : String) (h : ∀ c ∈ s.data, c.isWhitespace = true) :
    tokenize s = [] := by
  unfold tokenize
  rw [expandParens_ws s.data h]
  exact splitWS_ws s.data h

/-- C5: for inputs that pass the first-token and minimum-length checks,
the parse ends in `BracketMismatch` exactly when the token loop runs to
completion with the open-paren counter not back at 0 (so no other outcome
arises in that case); in particular `( 0 ( 1 )` fails with
`BracketMismatch`. -/
theorem C5_bracket_mismatch :
    (∀ (l1 t2 : String) (ts : List String),
        compileT ("(" :: l1 :: t2 :: ts) = .err .bracketMismatch ↔
          ∃ fs, runLoop (t2 :: ts) 2 (initState l1) = .ok fs ∧ fs.depth ≠ 0) ∧
    compileTree "( 0 ( 1 )" = .err .bracketMismatch := by
  constructor
  · intro l1 t2 ts
    rw [compileT_main]
    unfold runOutcome
    cases hr : runLoop (t2 :: ts) 2 (initState l1) with
    | error o =>
      simp only [finishParse]
      constructor
      · intro h
        exfalso
        rcases runLoop_error _ _ _ _ hr with h2 | ⟨u, j, h2⟩ <;> simp_all
      · rintro ⟨fs, hfs, _⟩
        exact absurd hfs (by simp)
    | ok fs =>
      simp only [finishParse]
      by_cases hd : fs.depth = 0
      · rw [if_neg (by simpa using hd)]
        constructor
        · intro h
          exfalso
          cases hrd : fs.rootDone with
          | some r => rw [hrd] at h; simp at h
          | none => rw [hrd] at h; simp at h
        · rintro ⟨fs2, hfs2, hne⟩
          injection hfs2 with he
          subst he
          exact absurd hd hne
      · rw [if_pos hd]
        exact ⟨fun _ => ⟨fs, rfl, hd⟩, fun _ => rfl⟩
  · rfl

/-- C9: an input with no tokens at all crashes on the `T[0]` access
(IndexError) before any diagnostic is reported, and the `TooShort`
diagnostic is reachable exactly for token lists of length 1 or 2 starting
with `(`. -/
theorem C9_no_tokens_crash :
    (∀ s : String, (∀ c ∈ s.data, c.isWhitespace = true) →
        compileTree s = .crash .indexError) ∧
    (∀ T : List String, compileT T = .err .tooShort ↔
        (T.head? = some "(" ∧ (T.length = 1 ∨ T.length = 2))) := by
  constructor
  · intro s h
    unfold compileTree
    rw [tokenize_ws s h]
    rfl
  · intro T
    constructor
    · intro h
      match T with
      | [] => simp [compileT] at h
      | t0 :: rest =>
        by_cases h0 : t0 = "("
        · subst h0
          match rest with
          | [] => exact ⟨rfl, Or.inl rfl⟩
          | [x] => exact ⟨rfl, Or.inr rfl⟩
          | l1 :: t2 :: ts =>
            exfalso
            rw [compileT_main] at h
            unfold runOutcome at h
            cases hr : runLoop (t2 :: ts) 2 (initState l1) with
            | error o =>
              rw [hr] at h
              simp only [finishParse] at h
              rcases runLoop_error _ _ _ _ hr with h2 | ⟨u, j, h2⟩ <;> simp_all
            | ok fs =>
              rw [hr] at h
              simp only [finishParse] at h
              split at h
              · simp at h
              · cases hrd : fs.rootDone with
                | some r => rw [hrd] at h; simp at h
                | none => rw [hrd] at h; simp at h
        · simp [compileT, h0] at h
    · rintro ⟨hh, hl⟩
      match T with
      | [] => simp at hh
      | t0 :: rest =>
        simp only [List.head?] at hh
        cases hh
        rcases hl with h1 | h2
        · have : rest = [] := by
            have : rest.length = 0 := by simpa using h1
            exact List.length_eq_zero.mp this
          subst this
          rfl
        · have : rest.length = 1 := by simpa using h2
          obtain ⟨x, hx⟩ := List.length_eq_one.mp this
          subst hx
          rfl

/-- C10: the token at index 1 becomes the root label with no validation:
`( ) )` parses to a single node labeled `)`, and `( ( )` to a single node
labeled `(`. -/
theorem C10_label_unvalidated :
    compileTree "( ) )" = .ok (.node ")" []) ∧
    compileTree "( ( )" = .ok (.node "(" []) := ⟨rfl, rfl⟩

/-- C8 (amended): when the open-paren counter returns to 0 with tokens
still unread, the insertion pointer is `None`; processing then
dereferences `None` when the next token is `)` or when it is `(` followed
by anything, while a lone trailing `(` ends with `BracketMismatch` and a
label token is reported as `UnexpectedToken` — so the original claim
holds except in those two residual-input shapes. -/
theorem C8_after_root_amended (l1 : String) (ts1 : List String) (u : String)
    (us : List String) (s1 : PState)
    (h1 : runLoop ts1 2 (initState l1) = .ok s1) (h0 : s1.depth = 0) :
    compileT ("(" :: l1 :: (ts1 ++ u :: us)) =
      if u = ")" then .crash .noneAttr
      else if u = "(" then
        (if us.isEmpty then .err .bracketMismatch else .crash .noneAttr)
      else .err (.unexpectedTok u (2 + ts1.length)) := by
  obtain ⟨hsp, hst, r, hrd⟩ :=
    depth_zero_state (runLoop_inv ts1 2 (stInv_init l1) h1) h0
  have hs1 : s1 = ⟨[], some r, 0, 2⟩ := by
    cases s1
    simp_all
  rw [compileT_main2 l1 (ts1 ++ u :: us) (by simp)]
  unfold runOutcome
  rw [runLoop_append]
  simp only [h1, hs1, List.length_cons]
  have := runOutcome_after_root r (2 + ts1.length) u us
  unfold runOutcome at this
  exact this

/-- C8 witness: `( 0 ) )` indeed dereferences `None`. -/
theorem C8_after_root_amended_witness :
    compileT ("(" :: "0" :: ([")"] ++ ")" :: [])) = .crash .noneAttr := by
  have h := C8_after_root_amended "0" [")"] ")" []
      ⟨[], some (.node "0" []), 0, 2⟩ rfl rfl
  simpa using h

/-- C8 counterexample to the claim as stated: on `( 0 ) (` the counter
returns to 0 after the third token with the final `(` still unread, yet
the run terminates with the `BracketMismatch` parse error (not a `None`
dereference). -/
theorem C8_counterexample :
    (runLoop [")"] 2 (initState "0") = .ok ⟨[], some (.node "0" []), 0, 2⟩ ∧
      tokenize "( 0 ) (" = ["(", "0", ")", "("]) ∧
    compileTree "( 0 ) (" = .err .bracketMismatch := ⟨⟨rfl, rfl⟩, rfl⟩

/-! ## The stack machine agrees with the recursive traversal -/

theorem stackSz_pushChildren (cs : List ATree) (xy : Int × Int) (p : List Nat) (i : Nat)
    (rest : List (ATree × Option (Int × Int) × List Nat)) :
    stackSz (pushChildren cs xy p i ++ rest) = szList cs + stackSz rest := by
  induction cs generalizing i with
  | nil => simp [pushChildren, szList]
  | cons c cs ih =>
    simp [pushChildren, szList, stackSz, ih]
    omega

theorem foldSpec_pushChildren (cs : List ATree) (xy : Int × Int) (p : List Nat) (i : Nat)
    (rest : List (ATree × Option (Int × Int) × List Nat)) (ind : Nat) :
    foldSpec (pushChildren cs xy p i ++ rest) ind =
      ((placeSpecList cs xy p i ind).1 ++
          (foldSpec rest (placeSpecList cs xy p i ind).2.2).1,
        (placeSpecList cs xy p i ind).2.1 ++
          (foldSpec rest (placeSpecList cs xy p i ind).2.2).2.1,
        (foldSpec rest (placeSpecList cs xy p i ind).2.2).2.2) := by
  induction cs generalizing i ind with
  | nil => simp [pushChildren, placeSpecList, foldSpec]
  | cons c cs ih =>
    simp only [pushChildren, List.cons_append, foldSpec, placeSpecList, List.append_eq]
    rw [ih]
    simp [List.append_assoc]

theorem plotTreeM_eq_foldSpec :
    ∀ (stack : List (ATree × Option (Int × Int) × List Nat)) (ind : Nat),
      plotTreeM stack ind = foldSpec stack ind
  | [], ind => by simp [plotTreeM, foldSpec]
  | (.node l w h d px py cs, pp, p) :: rest, ind => by
    have ih := plotTreeM_eq_foldSpec
        (pushChildren cs (xOf ind w, yOf d) p 0 ++ rest)
        (if cs.isEmpty then ind + 1 else ind)
    simp only [plotTreeM, foldSpec, placeSpec]
    rw [ih, foldSpec_pushChildren]
    simp [List.append_assoc]
termination_by stack _ => stackSz stack
decreasing_by
  rw [stackSz_pushChildren]
  simp [stackSz, ATree.sz]

theorem plotRun_eq (t : ATree) : plotRun t = placeSpec t none [] 0 := by
  rw [plotRun, plotTreeM_eq_foldSpec]
  simp [foldSpec]

/-! ## Cursor, path and coordinate facts about the traversal -/

theorem exitC_append (c : Nat) (vs1 vs2 : List Visit) :
    exitC c (vs1 ++ vs2) = exitC (exitC c vs1) vs2 := by
  induction vs1 generalizing c with
  | nil => simp [exitC]
  | cons v vs ih => simp [exitC, ih]

theorem cursorsFrom_append (c : Nat) (vs1 vs2 : List Visit) :
    cursorsFrom c (vs1 ++ vs2) ↔ cursorsFrom c vs1 ∧ cursorsFrom (exitC c vs1) vs2 := by
  induction vs1 generalizing c with
  | nil => simp [cursorsFrom, exitC]
  | cons v vs ih =>
    simp only [List.cons_append, cursorsFrom, exitC, List.append_eq, ih]
    tauto

mutual
theorem cursors_place : ∀ (t : ATree) (pp : Option (Int × Int)) (p : List Nat) (ind : Nat),
    cursorsFrom ind (placeSpec t pp p ind).2.1 ∧
      exitC ind (placeSpec t pp p ind).2.1 = (placeSpec t pp p ind).2.2
  | .node l w h d px py cs, pp, p, ind => by
    have hl := cursors_placeList cs (xOf ind w, yOf d) p 0
        (if cs.isEmpty then ind + 1 else ind)
    simp only [placeSpec, cursorsFrom, exitC]
    cases cs with
    | nil => exact ⟨⟨by trivial, by simpa using hl.1⟩, by simpa using hl.2⟩
    | cons c cs2 => exact ⟨⟨by trivial, by simpa using hl.1⟩, by simpa using hl.2⟩

theorem cursors_placeList : ∀ (cs : List ATree) (xy : Int × Int) (p : List Nat) (i ind : Nat),
    cursorsFrom ind (placeSpecList cs xy p i ind).2.1 ∧
      exitC ind (placeSpecList cs xy p i ind).2.1 = (placeSpecList cs xy p i ind).2.2
  | [], _, _, _, ind => by simp [placeSpecList, cursorsFrom, exitC]
  | c :: cs2, xy, p, i, ind => by
    have h1 := cursors_place c (some xy) (p ++ [i]) ind
    have h2 := cursors_placeList cs2 xy p (i + 1) (placeSpec c (some xy) (p ++ [i]) ind).2.2
    simp only [placeSpecList]
    rw [cursorsFrom_append, exitC_append, h1.2]
    exact ⟨⟨h1.1, h2.1⟩, h2.2⟩
end

mutual
theorem paths_place : ∀ (t : ATree) (pp : Option (Int × Int)) (p0 : List Nat) (ind : Nat),
    (placeSpec t pp p0 ind).2.1.map Visit.path = (pathsPre t).map (fun q => p0 ++ q)
  | .node l w h d px py cs, pp, p0, ind => by
    simp only [placeSpec, pathsPre, List.map_cons]
    rw [paths_placeList cs (xOf ind w, yOf d) p0 0 (if cs.isEmpty then ind + 1 else ind)]
    simp

theorem paths_placeList : ∀ (cs : List ATree) (xy : Int × Int) (p0 : List Nat) (i ind : Nat),
    (placeSpecList cs xy p0 i ind).2.1.map Visit.path = (pathsPreList cs i).map (fun q => p0 ++ q)
  | [], _, _, _, _ => by simp [placeSpecList, pathsPreList]
  | c :: cs2, xy, p0, i, ind => by
    simp only [placeSpecList, pathsPreList, List.map_append]
    rw [paths_place c (some xy) (p0 ++ [i]) ind,
      paths_placeList cs2 xy p0 (i + 1) (placeSpec c (some xy) (p0 ++ [i]) ind).2.2]
    simp [List.map_map, Function.comp_def, List.append_assoc]
end

mutual
theorem visit_mem_node : ∀ (t : ATree) (pp : Option (Int × Int)) (p0 : List Nat) (ind : Nat)
    (v : Visit), v ∈ (placeSpec t pp p0 ind).2.1 →
    ∃ q n, v.path = p0 ++ q ∧ nodeAt t q = some n ∧ v.width = n.width ∧
      v.depth = n.depth ∧ v.label = n.label ∧ v.nkids = n.children.length ∧
      v.x = xOf v.cursor n.width ∧ v.y = yOf n.depth
  | .node l w h d px py cs, pp, p0, ind, v => by
    intro hv
    simp only [placeSpec, List.mem_cons] at hv
    rcases hv with rfl | hv
    · exact ⟨[], .node l w h d px py cs, by simp, rfl, rfl, rfl, rfl, rfl, rfl, rfl⟩
    · obtain ⟨k, c, q, n, hk, hpath, hnode, hrest⟩ :=
        visit_mem_nodeList cs (xOf ind w, yOf d) p0 0
          (if cs.isEmpty then ind + 1 else ind) v hv
      refine ⟨k :: q, n, by simpa using hpath, ?_, hrest⟩
      rw [nodeAt, hk]
      exact hnode

theorem visit_mem_nodeList : ∀ (cs : List ATree) (xy : Int × Int) (p0 : List Nat)
    (i ind : Nat) (v : Visit), v ∈ (placeSpecList cs xy p0 i ind).2.1 →
    ∃ k c q n, cs[k]? = some c ∧ v.path = p0 ++ [i + k] ++ q ∧ nodeAt c q = some n ∧
      v.width = n.width ∧ v.depth = n.depth ∧ v.label = n.label ∧
      v.nkids = n.children.length ∧ v.x = xOf v.cursor n.width ∧ v.y = yOf n.depth
  | [], _, _, _, _, v => by intro hv; simp [placeSpecList] at hv
  | c :: cs2, xy, p0, i, ind, v => by
    intro hv
    simp only [placeSpecList, List.mem_append] at hv
    rcases hv with hv | hv
    · obtain ⟨q, n, hpath, hnode, hrest⟩ :=
        visit_mem_node c (some xy) (p0 ++ [i]) ind v hv
      exact ⟨0, c, q, n, by simp, by simpa [List.append_assoc] using hpath, hnode, hrest⟩
    · obtain ⟨k, c2, q, n, hk, hpath, hnode, hrest⟩ :=
        visit_mem_nodeList cs2 xy p0 (i + 1)
          (placeSpec c (some xy) (p0 ++ [i]) ind).2.2 v hv
      refine ⟨k + 1, c2, q, n, by simpa using hk, ?_, hnode, hrest⟩
      have : i + 1 + k = i + (k + 1) := by omega
      rw [← this]
      exact hpath
end

mutual
theorem visit_parent_root : ∀ (t : ATree) (pp : Option (Int × Int)) (p0 : List Nat)
    (ind : Nat) (v : Visit), v ∈ (placeSpec t pp p0 ind).2.1 →
    (v.path = p0 ∧ v.parentPos = pp) ∨
      (p0.length < v.path.length ∧ v.parentPos.isSome = true)
  | .node l w h d px py cs, pp, p0, ind, v => by
    intro hv
    simp only [placeSpec, List.mem_cons] at hv
    rcases hv with rfl | hv
    · exact Or.inl ⟨rfl, rfl⟩
    · exact Or.inr (visit_parent_rootList cs (xOf ind w, yOf d) p0 0
        (if cs.isEmpty then ind + 1 else ind) v hv)

theorem visit_parent_rootList : ∀ (cs : List ATree) (xy : Int × Int) (p0 : List Nat)
    (i ind : Nat) (v : Visit), v ∈ (placeSpecList cs xy p0 i ind).2.1 →
    p0.length < v.path.length ∧ v.parentPos.isSome = true
  | [], _, _, _, _, v => by intro hv; simp [placeSpecList] at hv
  | c :: cs2, xy, p0, i, ind, v => by
    intro hv
    simp only [placeSpecList, List.mem_append] at hv
    rcases hv with hv | hv
    · rcases visit_parent_root c (some xy) (p0 ++ [i]) ind v hv with ⟨hp, hpp⟩ | ⟨hl, hpp⟩
      · rw [hp, hpp]
        simp
      · refine ⟨?_, hpp⟩
        simp at hl
        omega
    · exact visit_parent_rootList cs2 xy p0 (i + 1)
        (placeSpec c (some xy) (p0 ++ [i]) ind).2.2 v hv
end

/-! ## The annotation passes -/

theorem annotate_width (t : PTree) (pd : Int) : (annotate t pd).width = update_width t := by
  cases t
  simp [annotate, ATree.width]

theorem annotate_height (t : PTree) (pd : Int) : (annotate t pd).height = update_height t := by
  cases t
  simp [annotate, ATree.height]

theorem annotate_depth (t : PTree) (pd : Int) : (annotate t pd).depth = pd + 1 := by
  cases t
  simp [annotate, ATree.depth]

mutual
theorem update_width_eq : ∀ t : PTree, update_width t = numLeaves t
  | .node l [] => by
    simp [update_width, numLeaves, allNodes, allNodesList, PTree.children, List.filter]
  | .node l (c :: cs) => by
    rw [update_width, widthSum_eq (c :: cs)]
    simp [numLeaves, allNodes, PTree.children, List.filter]

theorem widthSum_eq : ∀ cs : List PTree,
    widthSum cs = ((allNodesList cs).filter fun u => u.children.isEmpty).length
  | [] => by simp [widthSum, allNodesList]
  | c :: cs => by
    rw [widthSum, update_width_eq c, widthSum_eq cs]
    simp [allNodesList, numLeaves, List.filter_append]
end

theorem widthSumA_annotateList (cs : List PTree) (pd : Int) :
    widthSumA (annotateList cs pd) = widthSum cs := by
  induction cs with
  | nil => rfl
  | cons c cs ih => simp [annotateList, widthSumA, widthSum, annotate_width, ih]

theorem heightMaxA_annotateList (cs : List PTree) (pd : Int) :
    heightMaxA (annotateList cs pd) = heightMax cs := by
  induction cs with
  | nil => rfl
  | cons c cs ih => simp [annotateList, heightMaxA, heightMax, annotate_height, ih]

theorem annotateList_depth_all (cs : List PTree) (pd : Int) :
    (annotateList cs pd).all (fun c => c.depth == pd + 1) = true := by
  induction cs with
  | nil => rfl
  | cons c cs ih => simp_all [annotateList, annotate_depth]

mutual
theorem wOK_annotate : ∀ (t : PTree) (pd : Int), wOK (annotate t pd) = true
  | .node l cs, pd => by
    cases cs with
    | nil => simp [annotate, annotateList, wOK, update_width, wOKList]
    | cons c cs2 =>
      have hne : annotateList (c :: cs2) (pd + 1)
          = annotate c (pd + 1) :: annotateList cs2 (pd + 1) := by
        simp [annotateList]
      simp only [annotate, wOK, hne, List.isEmpty_cons, Bool.false_eq_true, if_false,
        Bool.and_eq_true]
      rw [← hne]
      refine ⟨?_, wOKList_annotate (c :: cs2) (pd + 1)⟩
      rw [widthSumA_annotateList]
      simp [update_width]

theorem wOKList_annotate : ∀ (cs : List PTree) (pd : Int), wOKList (annotateList cs pd) = true
  | [], _ => rfl
  | c :: cs, pd => by
    simp [annotateList, wOKList, wOK_annotate c pd, wOKList_annotate cs pd]
end

mutual
theorem dhOK_annotate : ∀ (t : PTree) (pd : Int), dhOK (annotate t pd) = true
  | .node l cs, pd => by
    cases cs with
    | nil => simp [annotate, annotateList, dhOK, update_height, dhOKList]
    | cons c cs2 =>
      have hne : annotateList (c :: cs2) (pd + 1)
          = annotate c (pd + 1) :: annotateList cs2 (pd + 1) := by
        simp [annotateList]
      simp only [annotate, dhOK, hne, List.isEmpty_cons, Bool.false_eq_true, if_false,
        Bool.and_eq_true]
      rw [← hne]
      refine ⟨⟨?_, ?_⟩, dhOKList_annotate (c :: cs2) (pd + 1)⟩
      · rw [heightMaxA_annotateList]
        simp [update_height]
      · exact annotateList_depth_all (c :: cs2) (pd + 1)

theorem dhOKList_annotate : ∀ (cs : List PTree) (pd : Int), dhOKList (annotateList cs pd) = true
  | [], _ => rfl
  | c :: cs, pd => by
    simp [annotateList, dhOKList, dhOK_annotate c pd, dhOKList_annotate cs pd]
end

theorem annotateList_get (cs : List PTree) (pd : Int) (i : Nat) :
    (annotateList cs pd)[i]? = (cs[i]?).map (fun c => annotate c pd) := by
  induction cs generalizing i with
  | nil => simp [annotateList]
  | cons c cs ih =>
    cases i with
    | zero => simp [annotateList]
    | succ j => simp [annotateList, ih]

/-! ## Local recurrences descend to every subtree position -/

theorem nodeAt_cons (l : String) (w h : Nat) (d : Int) (px py : Option Int)
    (cs : List ATree) (i : Nat) (p : List Nat) :
    nodeAt (.node l w h d px py cs) (i :: p) =
      match cs[i]? with
      | some c => nodeAt c p
      | none => none := rfl

theorem entryAt_cons (l : String) (w h : Nat) (d : Int) (px py : Option Int)
    (cs : List ATree) (e i : Nat) (p : List Nat) :
    entryAt (.node l w h d px py cs) e (i :: p) =
      match cs[i]? with
      | some c => entryAt c (e + widthSumA (cs.take i)) p
      | none => none := rfl

theorem wOK_children (t : ATree) (h : wOK t = true) : wOKList t.children = true := by
  cases t with
  | node l w hh d px py cs =>
    simp only [wOK, Bool.and_eq_true] at h
    exact h.2

theorem dhOK_children (t : ATree) (h : dhOK t = true) : dhOKList t.children = true := by
  cases t with
  | node l w hh d px py cs =>
    simp only [dhOK, Bool.and_eq_true] at h
    exact h.2

theorem wOKList_get (cs : List ATree) (i : Nat) (c : ATree)
    (hl : wOKList cs = true) (hc : cs[i]? = some c) : wOK c = true := by
  induction cs generalizing i with
  | nil => simp at hc
  | cons a cs ih =>
    simp only [wOKList, Bool.and_eq_true] at hl
    cases i with
    | zero =>
      simp only [List.getElem?_cons_zero, Option.some.injEq] at hc
      rw [← hc]
      exact hl.1
    | succ j =>
      simp only [List.getElem?_cons_succ] at hc
      exact ih j hl.2 hc

theorem dhOKList_get (cs : List ATree) (i : Nat) (c : ATree)
    (hl : dhOKList cs = true) (hc : cs[i]? = some c) : dhOK c = true := by
  induction cs generalizing i with
  | nil => simp at hc
  | cons a cs ih =>
    simp only [dhOKList, Bool.and_eq_true] at hl
    cases i with
    | zero =>
      simp only [List.getElem?_cons_zero, Option.some.injEq] at hc
      rw [← hc]
      exact hl.1
    | succ j =>
      simp only [List.getElem?_cons_succ] at hc
      exact ih j hl.2 hc

theorem wOK_nodeAt : ∀ (p : List Nat) (t m : ATree),
    wOK t = true → nodeAt t p = some m → wOK m = true := by
  intro p
  induction p with
  | nil =>
    intro t m ht h
    simp only [nodeAt, Option.some.injEq] at h
    rw [← h]
    exact ht
  | cons i p ih =>
    intro t m ht h
    cases t with
    | node l w hh d px py cs =>
      rw [nodeAt_cons] at h
      cases hc : cs[i]? with
      | none => rw [hc] at h; simp at h
      | some c =>
        rw [hc] at h
        exact ih c m (wOKList_get cs i c (wOK_children _ ht) hc) h

theorem dhOK_nodeAt : ∀ (p : List Nat) (t m : ATree),
    dhOK t = true → nodeAt t p = some m → dhOK m = true := by
  intro p
  induction p with
  | nil =>
    intro t m ht h
    simp only [nodeAt, Option.some.injEq] at h
    rw [← h]
    exact ht
  | cons i p ih =>
    intro t m ht h
    cases t with
    | node l w hh d px py cs =>
      rw [nodeAt_cons] at h
      cases hc : cs[i]? with
      | none => rw [hc] at h; simp at h
      | some c =>
        rw [hc] at h
        exact ih c m (dhOKList_get cs i c (dhOK_children _ ht) hc) h

theorem wOK_facts (n : ATree) (h : wOK n = true) :
    (n.children = [] → n.width = 1) ∧
    (n.children ≠ [] → n.width = widthSumA n.children) := by
  cases n with
  | node l w hh d px py cs =>
    simp only [wOK, Bool.and_eq_true] at h
    obtain ⟨h1, _⟩ := h
    cases cs with
    | nil =>
      simp only [List.isEmpty_nil, if_true, beq_iff_eq] at h1
      refine ⟨fun _ => by simpa [ATree.width] using h1, fun hne => ?_⟩
      exact absurd (by simp [ATree.children]) hne
    | cons c cs2 =>
      simp only [List.isEmpty_cons, Bool.false_eq_true, if_false, beq_iff_eq] at h1
      refine ⟨fun he => ?_, fun _ => by simpa [ATree.width, ATree.children] using h1⟩
      exact absurd he (by simp [ATree.children])

theorem dhOK_facts (n : ATree) (h : dhOK n = true) :
    (∀ c ∈ n.children, c.depth = n.depth + 1) ∧
    (n.children = [] → n.height = 1) ∧
    (n.children ≠ [] → n.height = 1 + heightMaxA n.children) := by
  cases n with
  | node l w hh d px py cs =>
    simp only [dhOK, Bool.and_eq_true] at h
    obtain ⟨⟨h1, h2⟩, _⟩ := h
    refine ⟨?_, ?_, ?_⟩
    · intro c hc
      have := List.all_eq_true.mp h2 c (by simpa [ATree.children] using hc)
      simpa [ATree.depth, beq_iff_eq] using this
    · intro he
      have : cs = [] := by simpa [ATree.children] using he
      subst this
      simpa [ATree.height] using h1
    · intro hne
      have : cs ≠ [] := by simpa [ATree.children] using hne
      cases cs with
      | nil => exact absurd rfl this
      | cons c cs2 =>
        simp only [List.isEmpty_cons, Bool.false_eq_true, if_false, beq_iff_eq] at h1
        simpa [ATree.height, ATree.children] using h1

theorem wOK_width_pos : ∀ t : ATree, wOK t = true → 1 ≤ t.width
  | .node l w hh d px py cs => fun h => by
    simp only [wOK, Bool.and_eq_true] at h
    obtain ⟨h1, h2⟩ := h
    cases cs with
    | nil =>
      simp only [List.isEmpty_nil, if_true, beq_iff_eq] at h1
      simp [ATree.width, h1]
    | cons c cs2 =>
      simp only [List.isEmpty_cons, Bool.false_eq_true, if_false, beq_iff_eq] at h1
      have hc : wOK c = true := by
        simp only [wOKList, Bool.and_eq_true] at h2
        exact h2.1
      have hpos := wOK_width_pos c hc
      simp only [widthSumA] at h1
      simp only [ATree.width]
      omega

/-- C3: after the width pass every leaf has width 1, every internal node
the sum of the children widths, and the root width is the total number of
leaves. -/
theorem C3_subtree_width : ∀ (t : PTree) (pd : Int),
    (∀ p n, nodeAt (annotate t pd) p = some n →
      (n.children = [] → n.width = 1) ∧
      (n.children ≠ [] → n.width = widthSumA n.children)) ∧
    (annotate t pd).width = numLeaves t := by
  intro t pd
  constructor
  · intro p n h
    exact wOK_facts n (wOK_nodeAt p (annotate t pd) n (wOK_annotate t pd) h)
  · rw [annotate_width, update_width_eq]

/-- C4: after the depth and height passes the root depth is 0, every
child is one deeper than its parent, every leaf has height 1 and every
internal node one more than the max child height. -/
theorem C4_depth_height : ∀ (t : PTree) (pd : Int),
    (annotate t (-1)).depth = 0 ∧
    (∀ p n, nodeAt (annotate t pd) p = some n →
      (∀ c ∈ n.children, c.depth = n.depth + 1) ∧
      (n.children = [] → n.height = 1) ∧
      (n.children ≠ [] → n.height = 1 + heightMaxA n.children)) := by
  intro t pd
  constructor
  · rw [annotate_depth]
    norm_num
  · intro p n h
    exact dhOK_facts n (dhOK_nodeAt p (annotate t pd) n (dhOK_annotate t pd) h)

/-- C1: the placement pass visits nodes in pre-order with the leftmost
child first (`pathsPre`), keeps an integer leaf cursor that starts at 0
and advances by one exactly at visits of zero-children nodes
(`cursorsFrom`), and assigns
`x = cursor * NODE_DIST_X + width * NODE_DIST_X / 2` and
`y = depth * NODE_DIST_Y + NODE_DIST_Y / 2`, where width and depth are
the annotated fields of the visited node. -/
theorem C1_placement : ∀ t : ATree,
    ((plotRun t).2.1.map Visit.path = pathsPre t) ∧
    cursorsFrom 0 (plotRun t).2.1 ∧
    (∀ v ∈ (plotRun t).2.1,
      (v.x = (v.cursor : Int) * NODE_DIST_X + (v.width : Int) * NODE_DIST_X / 2 ∧
        v.y = v.depth * NODE_DIST_Y + NODE_DIST_Y / 2) ∧
      ∃ n, nodeAt t v.path = some n ∧ v.width = n.width ∧ v.depth = n.depth ∧
        v.label = n.label ∧ v.nkids = n.children.length) := by
  intro t
  rw [plotRun_eq]
  refine ⟨?_, (cursors_place t none [] 0).1, ?_⟩
  · rw [paths_place]
    simp
  · intro v hv
    obtain ⟨q, n, hpath, hnode, hw, hd, hl, hk, hx, hy⟩ := visit_mem_node t none [] 0 v hv
    simp only [List.nil_append] at hpath
    refine ⟨⟨?_, ?_⟩, n, ?_, hw, hd, hl, hk⟩
    · rw [hx, hw]; rfl
    · rw [hy, hd]; rfl
    · rw [hpath]; exact hnode

/-! ## Leaf-slot intervals -/

theorem widthSumA_take_get (cs : List ATree) (i : Nat) (c : ATree) (hc : cs[i]? = some c) :
    widthSumA (cs.take (i + 1)) = widthSumA (cs.take i) + c.width := by
  induction cs generalizing i with
  | nil => simp at hc
  | cons a cs ih =>
    cases i with
    | zero =>
      simp only [List.getElem?_cons_zero, Option.some.injEq] at hc
      simp [List.take_succ_cons, widthSumA, ← hc]
    | succ j =>
      simp only [List.getElem?_cons_succ] at hc
      simp [List.take_succ_cons, widthSumA, ih j hc]
      omega

theorem widthSumA_take_mono (cs : List ATree) (i j : Nat) (hij : i ≤ j) :
    widthSumA (cs.take i) ≤ widthSumA (cs.take j) := by
  induction cs generalizing i j with
  | nil => simp
  | cons a cs ih =>
    cases i with
    | zero => simp [widthSumA]
    | succ i2 =>
      cases j with
      | zero => omega
      | succ j2 =>
        simp only [List.take_succ_cons, widthSumA]
        have := ih i2 j2 (by omega)
        omega

theorem widthSumA_take_length (cs : List ATree) :
    widthSumA (cs.take cs.length) = widthSumA cs := by
  rw [List.take_length]

/-- The leaf cursor on entry to a descendant stays within the leaf-slot
interval the subtree reserves. -/
theorem entry_bounds : ∀ (p : List Nat) (t : ATree) (e : Nat) (n : ATree) (c2 : Nat),
    wOK t = true → nodeAt t p = some n → entryAt t e p = some c2 →
    e ≤ c2 ∧ c2 + n.width ≤ e + t.width := by
  intro p
  induction p with
  | nil =>
    intro t e n c2 _ hn he
    simp only [nodeAt, Option.some.injEq] at hn
    simp only [entryAt, Option.some.injEq] at he
    rw [← hn, ← he]
    omega
  | cons i p ih =>
    intro t e n c2 hw hn he
    cases t with
    | node l w hh d px py cs =>
      rw [nodeAt_cons] at hn
      rw [entryAt_cons] at he
      cases hc : cs[i]? with
      | none => rw [hc] at hn; simp at hn
      | some ci =>
        rw [hc] at hn he
        have hwc : wOK ci = true := wOKList_get cs i ci (wOK_children _ hw) hc
        obtain ⟨h1, h2⟩ := ih ci (e + widthSumA (cs.take i)) n c2 hwc hn he
        have hlen : i < cs.length := by
          rcases List.getElem?_eq_some.mp hc with ⟨hlt, _⟩
          exact hlt
        have hmono : widthSumA (cs.take (i + 1)) ≤ widthSumA cs := by
          calc widthSumA (cs.take (i + 1)) ≤ widthSumA (cs.take cs.length) :=
                widthSumA_take_mono cs (i + 1) cs.length (by omega)
            _ = widthSumA cs := widthSumA_take_length cs
        have hstep := widthSumA_take_get cs i ci hc
        have hwidth : (ATree.node l w hh d px py cs).width = widthSumA cs := by
          have := (wOK_facts _ hw).2
          apply this
          simp [ATree.children]
          intro hnil
          rw [hnil] at hc
          simp at hc
        rw [hwidth]
        omega

theorem nodeAt_append : ∀ (r s : List Nat) (t : ATree),
    nodeAt t (r ++ s) = (nodeAt t r).bind (fun m => nodeAt m s) := by
  intro r
  induction r with
  | nil => intro s t; simp [nodeAt]
  | cons i r ih =>
    intro s t
    cases t with
    | node l w hh d px py cs =>
      rw [List.cons_append, nodeAt_cons, nodeAt_cons]
      cases hc : cs[i]? with
      | none => simp
      | some c => simp [ih s c]

theorem entryAt_isSome : ∀ (p : List Nat) (t : ATree) (e : Nat),
    (entryAt t e p).isSome = (nodeAt t p).isSome := by
  intro p
  induction p with
  | nil => intro t e; simp [entryAt, nodeAt]
  | cons i p ih =>
    intro t e
    cases t with
    | node l w hh d px py cs =>
      rw [nodeAt_cons, entryAt_cons]
      cases hc : cs[i]? with
      | none => simp
      | some c => simp [ih c]

theorem entryAt_append : ∀ (r s : List Nat) (t m : ATree) (e em : Nat),
    nodeAt t r = some m → entryAt t e r = some em →
    entryAt t e (r ++ s) = entryAt m em s := by
  intro r
  induction r with
  | nil =>
    intro s t m e em hn he
    simp only [nodeAt, Option.some.injEq] at hn
    simp only [entryAt, Option.some.injEq] at he
    rw [← hn, ← he]
    simp
  | cons i r ih =>
    intro s t m e em hn he
    cases t with
    | node l w hh d px py cs =>
      rw [nodeAt_cons] at hn
      rw [entryAt_cons] at he
      rw [List.cons_append, entryAt_cons]
      cases hc : cs[i]? with
      | none => rw [hc] at hn; simp at hn
      | some c =>
        rw [hc] at hn he
        exact ih s c m (e + widthSumA (cs.take i)) em hn he

/-- Two path positions, neither an ancestor-or-self of the other, agree on
a common stem and then branch at distinct child indices. -/
theorem paths_split : ∀ (p q : List Nat), isAnc p q = false → isAnc q p = false →
    ∃ r i p2 j q2, p = r ++ i :: p2 ∧ q = r ++ j :: q2 ∧ i ≠ j := by
  intro p
  induction p with
  | nil => intro q h1 _; simp [isAnc] at h1
  | cons a p ih =>
    intro q h1 h2
    cases q with
    | nil => simp [isAnc] at h2
    | cons b q2 =>
      by_cases hab : a = b
      · subst hab
        simp only [isAnc, beq_self_eq_true, Bool.true_and] at h1 h2
        obtain ⟨r, i, p3, j, q3, hp, hq, hij⟩ := ih q2 h1 h2
        exact ⟨a :: r, i, p3, j, q3, by simp [hp], by simp [hq], hij⟩
      · exact ⟨[], a, p, b, q2, rfl, rfl, hab⟩

/-- Siblings left to right: the whole interval of a descendant of an
earlier child lies before the entry of any descendant of a later one. -/
theorem disjoint_sibling_lt (m : ATree) (hm : wOK m = true) (i j : Nat) (hij : i < j)
    (p2 q2 : List Nat) (na nb : ATree) (em ea eb : Nat)
    (hna : nodeAt m (i :: p2) = some na) (hea : entryAt m em (i :: p2) = some ea)
    (hnb : nodeAt m (j :: q2) = some nb) (heb : entryAt m em (j :: q2) = some eb) :
    ea + na.width ≤ eb := by
  cases m with
  | node l w hh d px py cs =>
    rw [nodeAt_cons] at hna hnb
    rw [entryAt_cons] at hea heb
    cases hci : cs[i]? with
    | none => rw [hci] at hna; simp at hna
    | some ci =>
      cases hcj : cs[j]? with
      | none => rw [hcj] at hnb; simp at hnb
      | some cj =>
        rw [hci] at hna hea
        rw [hcj] at hnb heb
        have hwl := wOK_children _ hm
        have hwi := wOKList_get cs i ci hwl hci
        have hwj := wOKList_get cs j cj hwl hcj
        obtain ⟨_, hA⟩ := entry_bounds p2 ci (em + widthSumA (cs.take i)) na ea hwi hna hea
        obtain ⟨hB, _⟩ := entry_bounds q2 cj (em + widthSumA (cs.take j)) nb eb hwj hnb heb
        have hstep := widthSumA_take_get cs i ci hci
        have hmono := widthSumA_take_mono cs (i + 1) j hij
        omega

/-- The leaf-slot intervals of two positions that branch at distinct
child indices below a common stem are disjoint. -/
theorem disjoint_split_paths : ∀ (r : List Nat) (t : ATree), wOK t = true →
    ∀ (i : Nat) (p2 : List Nat) (j : Nat) (q2 : List Nat) (na nb : ATree) (e ea eb : Nat),
    i ≠ j →
    nodeAt t (r ++ i :: p2) = some na → entryAt t e (r ++ i :: p2) = some ea →
    nodeAt t (r ++ j :: q2) = some nb → entryAt t e (r ++ j :: q2) = some eb →
    ea + na.width ≤ eb ∨ eb + nb.width ≤ ea := by
  intro r
  induction r with
  | nil =>
    intro t hw i p2 j q2 na nb e ea eb hij hna hea hnb heb
    simp only [List.nil_append] at hna hea hnb heb
    rcases Nat.lt_or_ge i j with hlt | hge
    · exact Or.inl (disjoint_sibling_lt t hw i j hlt p2 q2 na nb e ea eb hna hea hnb heb)
    · have hlt : j < i := by omega
      exact Or.inr (disjoint_sibling_lt t hw j i hlt q2 p2 nb na e eb ea hnb heb hna hea)
  | cons a r ih =>
    intro t hw i p2 j q2 na nb e ea eb hij hna hea hnb heb
    cases t with
    | node l w hh d px py cs =>
      rw [List.cons_append, nodeAt_cons] at hna hnb
      rw [List.cons_append, entryAt_cons] at hea heb
      cases hca : cs[a]? with
      | none => rw [hca] at hna; simp at hna
      | some ca =>
        rw [hca] at hna hea hnb heb
        exact ih ca (wOKList_get cs a ca (wOK_children _ hw) hca)
          i p2 j q2 na nb (e + widthSumA (cs.take a)) ea eb hij hna hea hnb heb

mutual
/-- The leaf cursor advances over a subtree by exactly its width. -/
theorem placeSpec_exit : ∀ (t : ATree) (pp : Option (Int × Int)) (p : List Nat) (ind : Nat),
    wOK t = true → (placeSpec t pp p ind).2.2 = ind + t.width
  | .node l w h d px py cs, pp, p, ind => by
    intro hw
    simp only [wOK, Bool.and_eq_true] at hw
    obtain ⟨h1, h2⟩ := hw
    cases cs with
    | nil =>
      simp only [List.isEmpty_nil, if_true, beq_iff_eq] at h1
      simp [placeSpec, placeSpecList, ATree.width, h1]
    | cons c cs2 =>
      simp only [List.isEmpty_cons, Bool.false_eq_true, if_false, beq_iff_eq] at h1
      simp only [placeSpec, List.isEmpty_cons, Bool.false_eq_true, if_false]
      rw [placeSpecList_exit (c :: cs2) (xOf ind w, yOf d) p 0 ind h2]
      simp [ATree.width, h1]

theorem placeSpecList_exit : ∀ (cs : List ATree) (xy : Int × Int) (p : List Nat) (i ind : Nat),
    wOKList cs = true → (placeSpecList cs xy p i ind).2.2 = ind + widthSumA cs
  | [], _, _, _, ind => by intro _; simp [placeSpecList, widthSumA]
  | c :: cs2, xy, p, i, ind => by
    intro hw
    simp only [wOKList, Bool.and_eq_true] at hw
    simp only [placeSpecList]
    rw [placeSpec_exit c (some xy) (p ++ [i]) ind hw.1,
      placeSpecList_exit cs2 xy p (i + 1) (ind + c.width) hw.2]
    simp [widthSumA]
    omega
end

/-! ## The full characterization of a visit (cursor, node, parent) -/

mutual
theorem visit_mem_spec : ∀ (t : ATree) (pp : Option (Int × Int)) (p0 : List Nat)
    (ind : Nat) (v : Visit), wOK t = true → v ∈ (placeSpec t pp p0 ind).2.1 →
    visitSpecOK t pp p0 ind v
  | .node l w h d px py cs, pp, p0, ind, v => by
    intro hw hv
    simp only [placeSpec, List.mem_cons] at hv
    rcases hv with rfl | hv
    · refine ⟨[], .node l w h d px py cs, by simp, rfl, rfl, rfl, rfl, rfl, rfl, rfl, rfl,
        fun _ => rfl, ?_⟩
      intro q2 i hq
      exact absurd hq.symm (by simp)
    · have hcs : ¬cs.isEmpty = true := by
        cases cs with
        | nil => simp [placeSpecList] at hv
        | cons c cs2 => simp
      rw [if_neg hcs] at hv
      obtain ⟨k, c, q, n, hk, hpath, hnode, hentry, hwn, hdn, hkn, hln, hx, hy, hpar1, hpar2⟩ :=
        visit_mem_specList cs (xOf ind w, yOf d) p0 0 ind v (wOK_children _ hw) hv
      refine ⟨k :: q, n, by simpa using hpath, ?_, ?_, hwn, hdn, hkn, hln, hx, hy,
        by simp, ?_⟩
      · rw [nodeAt_cons, hk]
        exact hnode
      · rw [entryAt_cons, hk]
        exact hentry
      · intro q2 i hq
        cases q2 with
        | nil =>
          simp only [List.nil_append] at hq
          have hk0 : k = i ∧ q = [] := by
            cases hq
            exact ⟨rfl, rfl⟩
          obtain ⟨rfl, rfl⟩ := hk0
          refine ⟨.node l w h d px py cs, ind, rfl, rfl, ?_⟩
          rw [hpar1 rfl]
          rfl
        | cons a q2b =>
          simp only [List.cons_append] at hq
          have hka : k = a ∧ q = q2b ++ [i] := by
            cases hq
            exact ⟨rfl, rfl⟩
          obtain ⟨rfl, hq2⟩ := hka
          obtain ⟨m, e2, hm, he2, hppv⟩ := hpar2 q2b i hq2
          refine ⟨m, e2, ?_, ?_, hppv⟩
          · rw [nodeAt_cons, hk]
            exact hm
          · rw [entryAt_cons, hk]
            exact he2

theorem visit_mem_specList : ∀ (cs : List ATree) (xy : Int × Int) (p0 : List Nat)
    (i0 ind : Nat) (v : Visit), wOKList cs = true →
    v ∈ (placeSpecList cs xy p0 i0 ind).2.1 →
    ∃ k c q n, cs[k]? = some c ∧ v.path = p0 ++ [i0 + k] ++ q ∧
      nodeAt c q = some n ∧
      entryAt c (ind + widthSumA (cs.take k)) q = some v.cursor ∧
      v.width = n.width ∧ v.depth = n.depth ∧ v.nkids = n.children.length ∧
      v.label = n.label ∧ v.x = xOf v.cursor n.width ∧ v.y = yOf n.depth ∧
      (q = [] → v.parentPos = some xy) ∧
      (∀ q2 j, q = q2 ++ [j] →
        ∃ m e2, nodeAt c q2 = some m ∧
          entryAt c (ind + widthSumA (cs.take k)) q2 = some e2 ∧
          v.parentPos = some (xOf e2 m.width, yOf m.depth))
  | [], _, _, _, _, v => by intro _ hv; simp [placeSpecList] at hv
  | c :: cs2, xy, p0, i0, ind, v => by
    intro hwl hv
    simp only [wOKList, Bool.and_eq_true] at hwl
    simp only [placeSpecList, List.mem_append] at hv
    rcases hv with hv | hv
    · obtain ⟨q, n, hpath, hnode, hentry, hwn, hdn, hkn, hln, hx, hy, hpar1, hpar2⟩ :=
        visit_mem_spec c (some xy) (p0 ++ [i0]) ind v hwl.1 hv
      refine ⟨0, c, q, n, by simp, by simpa [List.append_assoc] using hpath,
        hnode, by simpa using hentry, hwn, hdn, hkn, hln, hx, hy, hpar1, ?_⟩
      intro q2 j hq
      obtain ⟨m, e2, hm, he2, hppv⟩ := hpar2 q2 j hq
      exact ⟨m, e2, hm, by simpa using he2, hppv⟩
    · rw [placeSpec_exit c (some xy) (p0 ++ [i0]) ind hwl.1] at hv
      obtain ⟨k, c2, q, n, hk, hpath, hnode, hentry, hrest⟩ :=
        visit_mem_specList cs2 xy p0 (i0 + 1) (ind + c.width) v hwl.2 hv
      have hbase : ind + c.width + widthSumA (cs2.take k)
          = ind + widthSumA ((c :: cs2).take (k + 1)) := by
        simp [List.take_succ_cons, widthSumA]
        omega
      refine ⟨k + 1, c2, q, n, by simpa using hk, ?_, hnode, ?_, ?_⟩
      · have : i0 + 1 + k = i0 + (k + 1) := by omega
        rw [← this]
        exact hpath
      · rw [← hbase]
        exact hentry
      · obtain ⟨hwn, hdn, hkn, hln, hx, hy, hpar1, hpar2⟩ := hrest
        refine ⟨hwn, hdn, hkn, hln, hx, hy, hpar1, ?_⟩
        intro q2 j hq
        obtain ⟨m, e2, hm, he2, hppv⟩ := hpar2 q2 j hq
        refine ⟨m, e2, hm, ?_, hppv⟩
        rw [← hbase]
        exact he2
end

/-- C2: for any two visits of the placement traversal of an annotated
tree whose positions are not ancestor-related, the half-open leaf-slot
intervals `[cursor, cursor + width)` are disjoint. -/
theorem C2_disjoint_slots (t : PTree) (pd : Int) (u v : Visit)
    (hu : u ∈ (plotRun (annotate t pd)).2.1) (hv : v ∈ (plotRun (annotate t pd)).2.1)
    (h1 : isAnc u.path v.path = false) (h2 : isAnc v.path u.path = false) :
    u.cursor + u.width ≤ v.cursor ∨ v.cursor + v.width ≤ u.cursor := by
  have hw : wOK (annotate t pd) = true := wOK_annotate t pd
  rw [plotRun_eq] at hu hv
  obtain ⟨qu, nu, hupath, hunode, huentry, huw, _⟩ :=
    visit_mem_spec (annotate t pd) none [] 0 u hw hu
  obtain ⟨qv, nv, hvpath, hvnode, hventry, hvw, _⟩ :=
    visit_mem_spec (annotate t pd) none [] 0 v hw hv
  simp only [List.nil_append] at hupath hvpath
  rw [hupath, hvpath] at h1 h2
  obtain ⟨r, i, p2, j, q2, hqu, hqv, hij⟩ := paths_split qu qv h1 h2
  rw [huw, hvw]
  exact disjoint_split_paths r (annotate t pd) hw i p2 j q2 nu nv 0 u.cursor v.cursor hij
    (hqu ▸ hunode) (hqu ▸ huentry) (hqv ▸ hvnode) (hqv ▸ hventry)

/-- C2 witness: the two leaf visits of `( 0 ( 1 ) ( 2 ) )` occupy
disjoint slots. -/
theorem C2_disjoint_slots_witness :
    (⟨[0], "1", 1, 0, 1, 0, 25, 90, some (50, 30)⟩ : Visit).cursor +
        (⟨[0], "1", 1, 0, 1, 0, 25, 90, some (50, 30)⟩ : Visit).width ≤
        (⟨[1], "2", 1, 0, 1, 1, 75, 90, some (50, 30)⟩ : Visit).cursor ∨
      (⟨[1], "2", 1, 0, 1, 1, 75, 90, some (50, 30)⟩ : Visit).cursor +
        (⟨[1], "2", 1, 0, 1, 1, 75, 90, some (50, 30)⟩ : Visit).width ≤
        (⟨[0], "1", 1, 0, 1, 0, 25, 90, some (50, 30)⟩ : Visit).cursor := by
  have htr : (plotRun (annotate (.node "0" [.node "1" [], .node "2" []]) (-1))).2.1
      = [⟨[], "0", 2, 2, 0, 0, 50, 30, none⟩,
          ⟨[0], "1", 1, 0, 1, 0, 25, 90, some (50, 30)⟩,
          ⟨[1], "2", 1, 0, 1, 1, 75, 90, some (50, 30)⟩] := by
    simp [plotRun, plotTreeM, annotate, annotateList, update_width, widthSum,
      update_height, heightMax, pushChildren, plotNodeElems, xOf, yOf,
      NODE_RADIUS, NODE_DIST_X, NODE_DIST_Y]
  exact C2_disjoint_slots (.node "0" [.node "1" [], .node "2" []]) (-1)
    ⟨[0], "1", 1, 0, 1, 0, 25, 90, some (50, 30)⟩
    ⟨[1], "2", 1, 0, 1, 1, 75, 90, some (50, 30)⟩
    (by rw [htr]; simp) (by rw [htr]; simp) (by decide) (by decide)

/-! ## The renderer -/

theorem renderOf_append (vs1 vs2 : List Visit) :
    renderOf (vs1 ++ vs2) = renderOf vs1 ++ renderOf vs2 := by
  induction vs1 with
  | nil => simp [renderOf]
  | cons v vs ih => simp [renderOf, ih]

mutual
theorem elems_place : ∀ (t : ATree) (pp : Option (Int × Int)) (p0 : List Nat) (ind : Nat),
    (placeSpec t pp p0 ind).1 = renderOf (placeSpec t pp p0 ind).2.1
  | .node l w h d px py cs, pp, p0, ind => by
    simp only [placeSpec, renderOf]
    rw [elems_placeList cs (xOf ind w, yOf d) p0 0 (if cs.isEmpty then ind + 1 else ind)]

theorem elems_placeList : ∀ (cs : List ATree) (xy : Int × Int) (p0 : List Nat) (i ind : Nat),
    (placeSpecList cs xy p0 i ind).1 = renderOf (placeSpecList cs xy p0 i ind).2.1
  | [], _, _, _, _ => by simp [placeSpecList, renderOf]
  | c :: cs2, xy, p0, i, ind => by
    simp only [placeSpecList]
    rw [renderOf_append, elems_place c (some xy) (p0 ++ [i]) ind,
      elems_placeList cs2 xy p0 (i + 1) (placeSpec c (some xy) (p0 ++ [i]) ind).2.2]
end

theorem plotNodeElems_counts (l : String) (x y : Int) (pp : Option (Int × Int)) :
    ((plotNodeElems l x y pp).filter Elem.isCircle).length = 1 ∧
    ((plotNodeElems l x y pp).filter Elem.isText).length = 1 ∧
    ((plotNodeElems l x y pp).filter Elem.isLine).length = (if pp.isSome then 1 else 0) := by
  cases pp <;>
    simp [plotNodeElems, Elem.isCircle, Elem.isText, Elem.isLine, List.filter]

theorem renderOf_counts (vs : List Visit) :
    ((renderOf vs).filter Elem.isCircle).length = vs.length ∧
    ((renderOf vs).filter Elem.isText).length = vs.length ∧
    ((renderOf vs).filter Elem.isLine).length
      = (vs.filter (fun v => v.parentPos.isSome)).length := by
  induction vs with
  | nil => simp [renderOf]
  | cons v vs ih =>
    obtain ⟨hc, ht, hl⟩ := plotNodeElems_counts v.label v.x v.y v.parentPos
    refine ⟨?_, ?_, ?_⟩
    · simp [renderOf, List.filter_append, hc, ih.1]
      omega
    · simp [renderOf, List.filter_append, ht, ih.2.1]
      omega
    · simp only [renderOf, List.filter_append, List.length_append, hl, ih.2.2]
      cases hp : v.parentPos.isSome <;> simp [List.filter_cons, hp] <;> omega

/-- C6: the accumulated plot is exactly one circle of radius
`NODE_RADIUS`, one centered label, and — for non-root visits only — one
parent-to-child line per visit, in visit order; lines run from
`(parent.x, parent.y + NODE_RADIUS)` to `(x, y - NODE_RADIUS)` with the
parent position being the coordinates computed for the parent visit; the
single-node input `( 0 )` yields one circle, one label and no line. -/
theorem C6_renderer : ∀ (t : PTree) (pd : Int),
    ((plotRun (annotate t pd)).1 = renderOf (plotRun (annotate t pd)).2.1) ∧
    (((plotRun (annotate t pd)).1.filter Elem.isCircle).length
        = (plotRun (annotate t pd)).2.1.length ∧
      ((plotRun (annotate t pd)).1.filter Elem.isText).length
        = (plotRun (annotate t pd)).2.1.length ∧
      ((plotRun (annotate t pd)).1.filter Elem.isLine).length
        = ((plotRun (annotate t pd)).2.1.filter (fun v => v.parentPos.isSome)).length) ∧
    (∀ v ∈ (plotRun (annotate t pd)).2.1, (v.parentPos = none ↔ v.path = [])) ∧
    (∀ u v (i : Nat), u ∈ (plotRun (annotate t pd)).2.1 →
      v ∈ (plotRun (annotate t pd)).2.1 → v.path = u.path ++ [i] →
      v.parentPos = some (u.x, u.y)) ∧
    (compileTree "( 0 )" = .ok (.node "0" []) ∧
      plotRun (annotate (.node "0" []) (-1))
        = ([.circle 25 30 20, .textE "0" 25 30],
            [⟨[], "0", 1, 0, 0, 0, 25, 30, none⟩], 1)) := by
  intro t pd
  have hw : wOK (annotate t pd) = true := wOK_annotate t pd
  have ha : (plotRun (annotate t pd)).1 = renderOf (plotRun (annotate t pd)).2.1 := by
    rw [plotRun_eq]
    exact elems_place (annotate t pd) none [] 0
  refine ⟨ha, ?_, ?_, ?_, rfl, ?_⟩
  · rw [ha]
    exact renderOf_counts (plotRun (annotate t pd)).2.1
  · rw [plotRun_eq]
    intro v hv
    rcases visit_parent_root (annotate t pd) none [] 0 v hv with ⟨hp, hpp⟩ | ⟨hl, hsome⟩
    · exact ⟨fun _ => hp, fun _ => hpp⟩
    · constructor
      · intro hn
        rw [hn] at hsome
        simp at hsome
      · intro hn
        rw [hn] at hl
        simp at hl
  · rw [plotRun_eq]
    intro u v i hu hv hpath
    obtain ⟨qu, nu, hupath, hunode, huentry, _, _, _, _, hux, huy, _, _⟩ :=
      visit_mem_spec (annotate t pd) none [] 0 u hw hu
    obtain ⟨qv, nv, hvpath, _, _, _, _, _, _, _, _, _, hp2⟩ :=
      visit_mem_spec (annotate t pd) none [] 0 v hw hv
    simp only [List.nil_append] at hupath hvpath
    obtain ⟨m, e2, hm, he2, hppv⟩ := hp2 qu i (by rw [← hvpath, hpath, hupath])
    have hmn : m = nu := Option.some.inj (hm.symm.trans hunode)
    have hec : e2 = u.cursor := Option.some.inj (he2.symm.trans huentry)
    rw [hppv, hmn, hec, ← hux, ← huy]
  · simp [plotRun, plotTreeM, annotate, annotateList, update_width, update_height,
      pushChildren, plotNodeElems, xOf, yOf, NODE_RADIUS, NODE_DIST_X, NODE_DIST_Y]

/-! ## Idempotence of the layout pass -/

theorem applyLayoutList_isEmpty (cs : List ATree) (ind : Nat) :
    ((applyLayoutList cs ind).1).isEmpty = cs.isEmpty := by
  cases cs <;> simp [applyLayoutList]

theorem applyLayoutList_length (cs : List ATree) (ind : Nat) :
    ((applyLayoutList cs ind).1).length = cs.length := by
  induction cs generalizing ind with
  | nil => simp [applyLayoutList]
  | cons c cs ih => simp [applyLayoutList, ih]

mutual
theorem applyLayout_idem : ∀ (t : ATree) (j ind : Nat),
    applyLayout ((applyLayout t j).1) ind = applyLayout t ind
  | .node l w hh d px py cs, j, ind => by
    have hL := applyLayoutList_idem cs (if cs.isEmpty then j + 1 else j)
        (if cs.isEmpty then ind + 1 else ind)
    simp only [applyLayout, applyLayoutList_isEmpty]
    rw [hL]

theorem applyLayoutList_idem : ∀ (cs : List ATree) (j ind : Nat),
    applyLayoutList ((applyLayoutList cs j).1) ind = applyLayoutList cs ind
  | [], _, _ => by simp [applyLayoutList]
  | c :: cs2, j, ind => by
    simp only [applyLayoutList]
    rw [applyLayout_idem c j ind,
      applyLayoutList_idem cs2 (applyLayout c j).2 (applyLayout c ind).2]

end

mutual
theorem placeSpec_applyLayout : ∀ (t : ATree) (j : Nat) (pp : Option (Int × Int))
    (p0 : List Nat) (ind : Nat),
    placeSpec ((applyLayout t j).1) pp p0 ind = placeSpec t pp p0 ind
  | .node l w hh d px py cs, j, pp, p0, ind => by
    have hL := placeSpecList_applyLayout cs (if cs.isEmpty then j + 1 else j)
        (xOf ind w, yOf d) p0 0 (if cs.isEmpty then ind + 1 else ind)
    simp only [applyLayout, placeSpec, applyLayoutList_isEmpty, applyLayoutList_length]
    rw [hL]

theorem placeSpecList_applyLayout : ∀ (cs : List ATree) (j : Nat) (xy : Int × Int)
    (p0 : List Nat) (i ind : Nat),
    placeSpecList ((applyLayoutList cs j).1) xy p0 i ind = placeSpecList cs xy p0 i ind
  | [], _, _, _, _, _ => by simp [applyLayoutList]
  | c :: cs2, j, xy, p0, i, ind => by
    simp only [applyLayoutList, placeSpecList]
    rw [placeSpec_applyLayout c j (some xy) (p0 ++ [i]) ind,
      placeSpecList_applyLayout cs2 (applyLayout c j).2 xy p0 (i + 1)
        (placeSpec c (some xy) (p0 ++ [i]) ind).2.2]
end

mutual
theorem storedPos_applyLayout : ∀ (t : ATree) (pp : Option (Int × Int)) (p0 : List Nat)
    (ind : Nat),
    storedPos ((applyLayout t ind).1)
        = (placeSpec t pp p0 ind).2.1.map (fun v => (some v.x, some v.y)) ∧
      (applyLayout t ind).2 = (placeSpec t pp p0 ind).2.2
  | .node l w hh d px py cs, pp, p0, ind => by
    have hL := storedPosList_applyLayout cs (xOf ind w, yOf d) p0 0
        (if cs.isEmpty then ind + 1 else ind)
    simp only [applyLayout, placeSpec, storedPos, List.map_cons]
    exact ⟨by rw [hL.1], hL.2⟩

theorem storedPosList_applyLayout : ∀ (cs : List ATree) (xy : Int × Int) (p0 : List Nat)
    (i ind : Nat),
    storedPosList ((applyLayoutList cs ind).1)
        = (placeSpecList cs xy p0 i ind).2.1.map (fun v => (some v.x, some v.y)) ∧
      (applyLayoutList cs ind).2 = (placeSpecList cs xy p0 i ind).2.2
  | [], _, _, _, _ => by simp [applyLayoutList, placeSpecList, storedPosList]
  | c :: cs2, xy, p0, i, ind => by
    have h1 := storedPos_applyLayout c (some xy) (p0 ++ [i]) ind
    have h2 := storedPosList_applyLayout cs2 xy p0 (i + 1)
        (placeSpec c (some xy) (p0 ++ [i]) ind).2.2
    simp only [applyLayoutList, placeSpecList, storedPosList, List.map_append]
    rw [h1.2]
    exact ⟨by rw [h1.1, h2.1], h2.2⟩
end

/-- C7: running the layout pass a second time on the already laid-out
tree assigns every node the same coordinates: the tree is a fixed point
of `applyLayout`, the machine run on the laid-out tree is identical, and
the positions the pass stores are exactly the visit coordinates of the
machine run. -/
theorem C7_layout_idempotent : ∀ t : ATree,
    applyLayout ((applyLayout t 0).1) 0 = applyLayout t 0 ∧
    plotRun ((applyLayout t 0).1) = plotRun t ∧
    storedPos ((applyLayout t 0).1) = (plotRun t).2.1.map (fun v => (some v.x, some v.y)) := by
  intro t
  refine ⟨applyLayout_idem t 0 0, ?_, ?_⟩
  · rw [plotRun_eq, plotRun_eq]
    exact placeSpec_applyLayout t 0 none [] 0
  · rw [plotRun_eq]
    exact (storedPos_applyLayout t none [] 0).1

end TreePlot
